import Mathlib

/-!
Verification of the LingoVault Smart Import engine.

This file gives a shallow embedding of the import pipeline found in
`src/utils/importUtils.ts` (record extraction, field resolution, heuristic
repair), `src/services/aiService.ts` (plan normalization) and the
`mergeImportedWords` callback of the application component, and proves the
specified properties about it.

Modelling conventions:
* JavaScript strings are modelled as Lean `String`s; string indices are
  code points (all inputs of interest are in the Basic Multilingual Plane,
  where JS UTF-16 code-unit indices and code points agree).
* `String.prototype.toLowerCase` is modelled by ASCII case mapping
  (`Char.toLower`); the inputs of interest are ASCII or CJK, where the two
  agree.
* `JSON.parse` is a platform primitive and is modelled as an explicit
  parameter `jsonParse : String → Option JValue` (`none` = parse throws).
* `crypto.randomUUID` and `Date.now()` are modelled as explicit parameters
  (`uuid : Nat → String`, indexed by record position, and `now : Nat`).
* JS numbers appearing in the data model are modelled as `Int` (the code
  only ever floors/compares them).
-/

/-- The set of characters treated as whitespace by the JS `\s` class and
`String.prototype.trim` (restricted to the characters that can actually
occur in the data handled here). -/
def isJsSpace (c : Char) : Bool :=
  c = ' ' || c = '\t' || c = '\n' || c = '\r' || c = '\x0b' || c = '\x0c' ||
  c = ' ' || c = '　' || c = '﻿'

/-- Drop leading characters satisfying `p` (JS `replace(/^X+/, '')`). -/
def dropLeadWhile (p : Char → Bool) (l : List Char) : List Char :=
  l.dropWhile p

/-- Drop trailing characters satisfying `p` (JS `replace(/X+$/, '')`). -/
def dropTrailWhile (p : α → Bool) (l : List α) : List α :=
  (l.reverse.dropWhile p).reverse

/-- JS `String.prototype.trim`. -/
def jsTrim (s : String) : String :=
  String.mk (dropTrailWhile isJsSpace (dropLeadWhile isJsSpace s.data))

/-- JS `String.prototype.trimEnd`. -/
def jsTrimEnd (s : String) : String :=
  String.mk (dropTrailWhile isJsSpace s.data)

/-- JS `String.prototype.toLowerCase` (ASCII case mapping). -/
def jsLower (s : String) : String :=
  String.mk (s.data.map Char.toLower)

/-- CJK ideograph test used throughout the pipeline: the regex
`/[一-鿿]/` applied to a single character. -/
def isCjk (c : Char) : Bool :=
  0x4e00 ≤ c.toNat && c.toNat ≤ 0x9fff

/-- `/[一-鿿]/.test(value)`. -/
def containsCjk (s : String) : Bool :=
  s.data.any isCjk

/-- If `pre` is a leading run of `l`, return the remainder. -/
def dropLead : List Char → List Char → Option (List Char)
  | [], rest => some rest
  | _ :: _, [] => none
  | d :: ds, c :: cs => if c = d then dropLead ds cs else none

/-- JS `rawData.split(/\r?\n/)`: split on `\n`, additionally removing a
single `\r` immediately before each `\n`.  A `\r` not followed by `\n`
does not split and is kept. -/
def splitLinesJs (s : String) : List String :=
  (go s.data []).map String.mk
where
  stripTrailCr (cur : List Char) : List Char :=
    match cur.getLast? with
    | some '\r' => cur.dropLast
    | _ => cur
  go : List Char → List Char → List (List Char)
    | [], cur => [cur]
    | '\n' :: rest, cur => stripTrailCr cur :: go rest []
    | c :: rest, cur => go rest (cur ++ [c])

/-- JS `String.prototype.split` with a string separator.  The fuel is the
length of the input plus one; every step consumes at least one character,
so the fuel never runs out when called through `jsSplitOn`. -/
def jsSplitOnAux (sep : List Char) : Nat → List Char → List Char →
    List (List Char)
  | 0, _, cur => [cur]
  | _ + 1, [], cur => [cur]
  | fuel + 1, c :: cs, cur =>
    match dropLead sep (c :: cs) with
    | some rest => cur :: jsSplitOnAux sep fuel rest []
    | none => jsSplitOnAux sep fuel cs (cur ++ [c])

/-- JS `text.split(sep)`. -/
def jsSplitOn (sep : String) (text : String) : List String :=
  if sep.data.isEmpty then
    text.data.map (fun c => String.mk [c])
  else
    (jsSplitOnAux sep.data (text.data.length + 1) text.data []).map String.mk

/-- Split on maximal runs of characters satisfying `p`
(JS `split(/[...]+/)`), keeping empty tokens at the boundaries. -/
def splitRunsAux (p : Char → Bool) : Nat → List Char → List (List Char)
  | 0, l => [l]
  | fuel + 1, l =>
    match l.dropWhile (fun c => !p c) with
    | [] => [l.takeWhile (fun c => !p c)]
    | _ :: cs => l.takeWhile (fun c => !p c) :: splitRunsAux p fuel (cs.dropWhile p)

/-- JS `s.split(/[...]+/)` for the character class `p`. -/
def splitRuns (p : Char → Bool) (s : String) : List String :=
  (splitRunsAux p (s.data.length + 1) s.data).map String.mk

/-- JS `Number(segment)` restricted to the non-negative integer notations
that occur as array indices (a non-empty run of decimal digits). -/
def parseIndexNat (s : String) : Option Nat :=
  if s.data ≠ [] ∧ s.data.all Char.isDigit then
    some (s.data.foldl (fun n c => n * 10 + (c.toNat - '0'.toNat)) 0)
  else
    none

/-! ## JSON-like values

`JValue` models the JS values that flow through the pipeline: results of
`JSON.parse` and the synthetic record objects built by extraction.  A
missing key / `undefined` is modelled as `Option.none` at use sites. -/

inductive JValue where
  | null : JValue
  | bool : Bool → JValue
  | num : Int → JValue
  | str : String → JValue
  | arr : List JValue → JValue
  | obj : List (String × JValue) → JValue
  deriving Repr

/-- Property read on a JS object, where a later assignment of the same key
overwrites an earlier one (`kvs` lists assignments in program order);
`none` models `undefined`. -/
def jsLookup (kvs : List (String × JValue)) (k : String) : Option JValue :=
  (kvs.reverse.find? (fun p => p.1 == k)).map (·.2)

/-- `value?.[key]` for an arbitrary JS value: `undefined` unless the value
is an object with that key. -/
def jsGetOpt (v : JValue) (k : String) : Option JValue :=
  match v with
  | .obj kvs => jsLookup kvs k
  | _ => none

/-- `item && typeof item === 'object'` — true for objects and arrays,
false for `null` and primitives. -/
def isObjLike : JValue → Bool
  | .arr _ => true
  | .obj _ => true
  | _ => false

mutual

/-- `coerceToString` from `importUtils.ts`: `''` for `null`/`undefined`
handled at the call sites via `Option`, otherwise JS `String(value)`. -/
def coerceToString : JValue → String
  | .null => ""
  | .bool b => if b then "true" else "false"
  | .num n => toString n
  | .str s => s
  | .arr xs => coerceArr xs
  | .obj _ => "[object Object]"

/-- JS `Array.prototype.toString`: elements joined with `,`, `null`
rendered empty. -/
def coerceArr : List JValue → String
  | [] => ""
  | [.null] => ""
  | [v] => coerceToString v
  | .null :: rest => "," ++ coerceArr rest
  | v :: rest => coerceToString v ++ "," ++ coerceArr rest

end

/-- The segment loop of `getValueByPath`: `none` is JS `undefined`. -/
def resolvePath : List String → Option JValue → JValue
  | [], none => .str ""
  | [], some .null => .str ""
  | [], some v => v
  | _ :: _, none => .str ""
  | _ :: _, some .null => .str ""
  | seg :: rest, some (.arr xs) =>
    match parseIndexNat seg with
    | some i =>
      if h : i < xs.length then resolvePath rest (some (xs.get ⟨i, h⟩))
      else .str ""
    | none => .str ""
  | seg :: rest, some (.obj kvs) => resolvePath rest (jsLookup kvs seg)
  | _ :: _, some _ => .str ""

/-- `getValueByPath` from `importUtils.ts`: walk a dot path, returning
`''` (as a JS string) on any failure. -/
def getValueByPath (input : JValue) (path : Option String) : JValue :=
  match path with
  | none => .str ""
  | some p =>
    if p = "" then .str ""
    else
      resolvePath (((jsSplitOn "." p).map jsTrim).filter (· ≠ "")) (some input)

/-! ## Record extraction (`importUtils.ts`) -/

/-- Character scan of `parseDelimitedLine`: inside a quoted field a doubled
quote is an escaped literal quote, a single quote toggles quote mode;
outside quotes a (multi-character) delimiter match ends the field.  The
quote test precedes the delimiter test, as in the source.  Fuelled by the
input length; each step consumes at least one character. -/
def parseDelimitedLineAux (delim : List Char) : Nat → List Char → Bool →
    List Char → List (List Char)
  | 0, _, _, cur => [cur]
  | _ + 1, [], _, cur => [cur]
  | fuel + 1, '"' :: rest, inQuote, cur =>
    if inQuote then
      match rest with
      | '"' :: rest2 => parseDelimitedLineAux delim fuel rest2 true (cur ++ ['"'])
      | _ => parseDelimitedLineAux delim fuel rest false cur
    else
      parseDelimitedLineAux delim fuel rest true cur
  | fuel + 1, c :: cs, inQuote, cur =>
    if inQuote then
      parseDelimitedLineAux delim fuel cs inQuote (cur ++ [c])
    else
      match delim, dropLead delim (c :: cs) with
      | _ :: _, some rest2 => cur :: parseDelimitedLineAux delim fuel rest2 false []
      | _, _ => parseDelimitedLineAux delim fuel cs inQuote (cur ++ [c])

/-- `parseDelimitedLine` from `importUtils.ts`. -/
def parseDelimitedLine (text delimiter : String) : List String :=
  (parseDelimitedLineAux delimiter.data (text.data.length + 1) text.data
    false []).map String.mk

/-- One data row of `buildDelimitedRecords`: for each header index the
value is exposed under the header name, under `columnN` and under the
numeric index, and the raw split tokens are kept under `__parts`. -/
def delimitedRecord (headers : List String) (cols : List String) : JValue :=
  .obj ((headers.enum.flatMap (fun p =>
      let v := cols.getD p.1 ""
      [(p.2, .str v),
       ("column" ++ toString (p.1 + 1), .str v),
       (toString p.1, .str v)]))
    ++ [("__parts", .arr (cols.map .str))])

/-- `buildDelimitedRecords` from `importUtils.ts`. -/
def buildDelimitedRecords (rawData delimiter : String) (hasHeader : Bool)
    (skipRows : Nat) : List JValue :=
  let lines := ((splitLinesJs rawData).map jsTrimEnd).filter
    (fun l => jsTrim l ≠ "")
  if lines.isEmpty then []
  else
    let effectiveDelimiter := if delimiter = "" then "," else delimiter
    let headerIndex := min skipRows (lines.length - 1)
    let headerLine := lines.getD headerIndex ""
    let headers :=
      if hasHeader then (parseDelimitedLine headerLine effectiveDelimiter).map jsTrim
      else (parseDelimitedLine headerLine effectiveDelimiter).enum.map
        (fun p => "column" ++ toString (p.1 + 1))
    let dataStart := if hasHeader then headerIndex + 1 else skipRows
    (lines.drop dataStart).map (fun line =>
      delimitedRecord headers (parseDelimitedLine line effectiveDelimiter))

/-- `parseJsonRecords` from `importUtils.ts`; `jsonParse` models
`JSON.parse` (`none` = exception thrown).  On a top-level parse failure it
falls back to line-delimited recovery: parse each non-blank line
independently and silently drop lines that fail. -/
def parseJsonRecords (jsonParse : String → Option JValue) (rawData : String)
    (recordPath : Option String) : List JValue :=
  match jsonParse rawData with
  | some parsed =>
    let records :=
      match recordPath with
      | some rp => if rp = "" then parsed else getValueByPath parsed (some rp)
      | none => parsed
    match records with
    | .arr xs => xs.filter isObjLike
    | .obj kvs => [.obj kvs]
    | _ => []
  | none =>
    (((splitLinesJs rawData).map jsTrim).filter (· ≠ "")).filterMap
      (fun line =>
        match jsonParse line with
        | some v => if isObjLike v then some v else none
        | none => none)

/-! ## Tag / meaning extraction -/

/-- Trailing full-stop punctuation stripped by
`replace(/[。．.]+$/g, '')` followed by `trim()`. -/
def isFullStop (c : Char) : Bool :=
  c = '。' || c = '．' || c = '.'

/-- `segment.replace(/[。．.]+$/g, '').trim()`. -/
def stripTrailDotsTrim (s : String) : String :=
  jsTrim (String.mk (dropTrailWhile isFullStop s.data))

/-- The separator class `[/;,，、\s]` used to split a tag segment. -/
def isTagSep (c : Char) : Bool :=
  c = '/' || c = ';' || c = ',' || c = '，' || c = '、' || isJsSpace c

/-- The leading punctuation class `[\s:：.]` stripped from a meaning
segment. -/
def isMeaningLead (c : Char) : Bool :=
  isJsSpace c || c = ':' || c = '：' || c = '.'

/-- The tag-list parse applied to a (cleaned) tag segment: split on
separator runs, strip trailing full stops from each piece, drop blanks. -/
def parseTagList (cleaned : String) : List String :=
  ((splitRuns isTagSep cleaned).map stripTrailDotsTrim).filter (· ≠ "")

/-- Result of `extractTagsAndMeaning`. -/
structure TagsMeaning where
  tags : Option (List String)
  meaning : Option String
  deriving Repr, DecidableEq

/-- The tag-list half of `extractTagsAndMeaning`: strip trailing full
stops and trim; when non-empty, parse into tags (an empty parse yields
`undefined`). -/
def tagsOfSegment (tagSegment : String) : Option (List String) :=
  if stripTrailDotsTrim tagSegment ≠ "" then
    match parseTagList (stripTrailDotsTrim tagSegment) with
    | [] => none
    | ts => some ts
  else none

/-- The meaning half of `extractTagsAndMeaning`: keep the segment only
when non-empty. -/
def meaningOfSegment (m : String) : Option String :=
  if m ≠ "" then some m else none

/-- `extractTagsAndMeaning` from `importUtils.ts`: trim the raw string;
split it at the first CJK character if one exists (pre-CJK part becomes
the tag segment, CJK-onward remainder — stripped of leading
colon/space/period, trimmed — becomes the meaning); parse the tag
segment into a tag list. -/
def extractTagsAndMeaning (raw : String) : TagsMeaning :=
  if raw = "" then ⟨none, none⟩
  else if jsTrim raw = "" then ⟨none, none⟩
  else
    match (jsTrim raw).data.findIdx? isCjk with
    | some i =>
      ⟨tagsOfSegment (jsTrim (String.mk ((jsTrim raw).data.take i))),
       meaningOfSegment (jsTrim (String.mk
         (dropLeadWhile isMeaningLead ((jsTrim raw).data.drop i))))⟩
    | none => ⟨tagsOfSegment (jsTrim raw), none⟩

/-! ## Data model -/

/-- `WordItem` (`types.ts`, plus the `source` field used by the app). -/
structure WordItem where
  id : String
  english : String
  chinese : String
  «example» : Option String
  tags : Option (List String)
  isMastered : Nat
  createdAt : Nat
  source : String
  deriving Repr, DecidableEq

/-- `SmartImportFieldMap`: logical field → path/column expression. -/
structure SmartImportFieldMap where
  english : Option String := none
  chinese : Option String := none
  «example» : Option String := none
  tags : Option String := none
  deriving Repr, DecidableEq

/-- Import formats accepted by the pipeline. -/
inductive ImportFormat where
  | csv | tsv | json | text
  deriving Repr, DecidableEq

/-- `SmartImportPlan`.  `skipRows` is a non-negative integer: all plans
reaching `applySmartImportPlan` come from `normalizeSmartImportPlan`,
which floors and clamps it to `≥ 0`. -/
structure SmartImportPlan where
  format : ImportFormat
  delimiter : Option String := none
  hasHeader : Option Bool := none
  skipRows : Option Nat := none
  recordPath : Option String := none
  fieldMap : SmartImportFieldMap := {}
  notes : Option String := none
  confidence : Option Int := none
  deriving Repr, DecidableEq

/-! ## Text-format extraction and the main pipeline -/

/-- `expandSegments` from the `text` branch of `applySmartImportPlan`:
CJK auto-expansion of one token.  If the first CJK character sits at a
position greater than zero, the token is replaced by the pre-CJK part
(trailing full stops stripped, trimmed) and the CJK-led remainder
(leading colon/space/period stripped, trimmed), omitting empty parts. -/
def expandSegments (segment : String) : List String :=
  let trimmed := jsTrim segment
  if trimmed = "" then [""]
  else
    match trimmed.data.findIdx? isCjk with
    | some i =>
      if i > 0 then
        let posPart := stripTrailDotsTrim (String.mk (trimmed.data.take i))
        let meaningPart := jsTrim (String.mk
          (dropLeadWhile isMeaningLead (trimmed.data.drop i)))
        let result := (if posPart ≠ "" then [posPart] else []) ++
          (if meaningPart ≠ "" then [meaningPart] else [])
        if result ≠ [] then result else [trimmed]
      else [trimmed]
    | none => [trimmed]

/-- One record of the `text` branch: expanded tokens under `columnN` and
numeric keys, the token list under `__parts`, and a 1-based line number
under `__line`. -/
def textRecord (lineIdx : Nat) (line : String) (delimiter : String) : JValue :=
  let rawParts := jsSplitOn delimiter line
  let expanded := rawParts.flatMap expandSegments
  let expandedParts := if expanded.isEmpty then [jsTrim line] else expanded
  .obj ((expandedParts.enum.flatMap (fun p =>
      [("column" ++ toString (p.1 + 1), .str p.2), (toString p.1, .str p.2)]))
    ++ [("__parts", .arr (expandedParts.map .str)),
        ("__line", .num (lineIdx + 1))])

/-- The `text` branch of `applySmartImportPlan`: non-blank trimmed lines,
each split on the plan delimiter and CJK-auto-expanded. -/
def textRecords (delimiter : String) (rawData : String) : List JValue :=
  (((splitLinesJs rawData).map jsTrim).filter (· ≠ "")).enum.map
    (fun p => textRecord p.1 p.2 delimiter)

/-- Record extraction, dispatching on the plan format exactly as the
`switch` in `applySmartImportPlan` does: `csv` and `tsv` use the literal
`,` and tab delimiters, `text` uses `plan.delimiter || '\t'`, `json`
ignores the delimiter entirely. -/
def extractRecords (jsonParse : String → Option JValue) (rawData : String)
    (plan : SmartImportPlan) : List JValue :=
  match plan.format with
  | .csv => buildDelimitedRecords rawData "," (plan.hasHeader.getD true)
      (plan.skipRows.getD 0)
  | .tsv => buildDelimitedRecords rawData "\t" (plan.hasHeader.getD true)
      (plan.skipRows.getD 0)
  | .text =>
    textRecords (match plan.delimiter with
      | some s => if s = "" then "\t" else s
      | none => "\t") rawData
  | .json => parseJsonRecords jsonParse rawData plan.recordPath

/-- The `__parts` token list of a record
(`Array.isArray(record.__parts) ? record.__parts : []`). -/
def recParts : JValue → List JValue
  | .obj kvs =>
    match jsLookup kvs "__parts" with
    | some (.arr xs) => xs
    | _ => []
  | _ => []

/-- `ensureTag` from `applySmartImportPlan`: trim the candidate, ignore it
if blank, initialise the tag list if absent, and append the candidate if
it is not already present. -/
def ensureTag (tags : Option (List String)) (candidate : String) :
    Option (List String) :=
  let normalizedTag := jsTrim candidate
  if normalizedTag = "" then tags
  else
    let ts := tags.getD []
    if normalizedTag ∈ ts then some ts else some (ts ++ [normalizedTag])

/-- The per-record mapping body of `applySmartImportPlan`: resolve the
four fields, run `extractTagsAndMeaning` on the raw tags value, adopt its
meaning when `chinese` is empty, apply the positional CJK fallback for
`chinese` (demoting a non-CJK value into the tags), apply the positional
fallback for tags, and drop the record when `english` is blank. -/
def mapOne (fieldMap : SmartImportFieldMap) (sourceLabel : String)
    (now : Nat) (uuid : Nat → String) (p : Nat × JValue) : Option WordItem :=
  let index := p.1
  let record := p.2
  let english := jsTrim (coerceToString (getValueByPath record fieldMap.english))
  let chinese0 := jsTrim (coerceToString (getValueByPath record fieldMap.chinese))
  let example0 := jsTrim (coerceToString (getValueByPath record fieldMap.«example»))
  let tagsInfo := extractTagsAndMeaning
    (coerceToString (getValueByPath record fieldMap.tags))
  let tags0 := tagsInfo.tags
  let chinese1 :=
    match tagsInfo.meaning with
    | some m => if m ≠ "" ∧ chinese0 = "" then m else chinese0
    | none => chinese0
  let partsArray := recParts record
  let step3 :=
    if chinese1 = "" ∨ ¬containsCjk chinese1 then
      match partsArray.find? (fun part =>
          match part with
          | .str s => containsCjk s && jsTrim s ≠ "" && jsTrim s ≠ english
          | _ => false) with
      | some (.str s) =>
        (jsTrim s,
         if chinese1 ≠ "" ∧ ¬containsCjk chinese1 then ensureTag tags0 chinese1
         else tags0)
      | _ => (chinese1, tags0)
    else (chinese1, tags0)
  let chinese2 := step3.1
  let tagsA := step3.2
  let tagsB :=
    if (tagsA.getD []).isEmpty ∧ partsArray.length > 1 then
      (partsArray.filterMap (fun part =>
        match part with
        | .str s =>
          if ¬containsCjk s ∧ jsTrim s ≠ "" ∧ jsTrim s ≠ english then some s
          else none
        | _ => none)).foldl ensureTag tagsA
    else tagsA
  if english = "" then none
  else
    some
      { id := uuid index
        english := english
        chinese := chinese2
        «example» := if example0 = "" then none else some example0
        tags := tagsB
        isMastered := 0
        createdAt := now + index
        source := sourceLabel }

/-- `applySmartImportPlan` from `importUtils.ts`.  `jsonParse`, `now` and
`uuid` model the platform primitives `JSON.parse`, `Date.now()` and
`crypto.randomUUID()` (one fresh id per record position). -/
def applySmartImportPlan (jsonParse : String → Option JValue)
    (rawData : String) (plan : SmartImportPlan) (sourceLabel : String)
    (now : Nat) (uuid : Nat → String) : List WordItem :=
  let records := extractRecords jsonParse rawData plan
  if records.isEmpty then []
  else records.enum.filterMap (mapOne plan.fieldMap sourceLabel now uuid)

/-! ## Merge (`mergeImportedWords` in the application component) -/

/-- `word.english.trim().toLowerCase()` — the dedup key computed for a
merge candidate. -/
def mergeKey (w : WordItem) : String :=
  jsLower (jsTrim w.english)

/-- The id set seeded from the existing collection. -/
def mergeSeenIds (prev : List WordItem) : List String :=
  prev.map (·.id)

/-- The English set seeded from the existing collection: the existing
English values are lower-cased but NOT trimmed
(`item.english.toLowerCase()`). -/
def mergeSeenEnglish (prev : List WordItem) : List String :=
  prev.map (fun w => jsLower w.english)

/-- The candidate loop of `mergeImportedWords`: `ids` and `engs` are the
already-seen id set and lower-cased English set.  A candidate is skipped
when its trimmed lower-cased English is empty, or its id or key is
already seen; otherwise it is accepted and both sets grow. -/
def mergeNovelAux (ids engs : List String) : List WordItem → List WordItem
  | [] => []
  | w :: ws =>
    if mergeKey w = "" then mergeNovelAux ids engs ws
    else if w.id ∈ ids ∨ mergeKey w ∈ engs then mergeNovelAux ids engs ws
    else w :: mergeNovelAux (w.id :: ids) (mergeKey w :: engs) ws

/-- `mergeImportedWords`: returns `(insertedCount, newList)`.  Novel
candidates are prepended as a block before the existing list; when
nothing is inserted the existing list is returned unchanged. -/
def mergeImportedWords (prev incoming : List WordItem) : Nat × List WordItem :=
  if incoming.isEmpty then (0, prev)
  else
    let novel := mergeNovelAux (mergeSeenIds prev) (mergeSeenEnglish prev) incoming
    if novel.isEmpty then (0, prev)
    else (novel.length, novel ++ prev)

/-! ## Plan normalization (`aiService.ts`) -/

/-- `coerceField`: accept only a string whose trim is non-empty, and
return the trimmed value. -/
def coerceField (value : Option JValue) : Option String :=
  match value with
  | some (.str s) => if jsTrim s ≠ "" then some (jsTrim s) else none
  | _ => none

/-- `pickFirst`: first candidate accepted by `coerceField`. -/
def pickFirst : List (Option JValue) → Option String
  | [] => none
  | c :: cs =>
    match coerceField c with
    | some s => some s
    | none => pickFirst cs

/-- `normalizeFieldMap`: synonym-based resolution of the four logical
fields; a non-object input yields the empty map. -/
def normalizeFieldMap (rawFieldMap : Option JValue) : SmartImportFieldMap :=
  match rawFieldMap with
  | some (.obj kvs) =>
    { english := pickFirst ([ "english", "English", "word", "Word",
        "column1", "Column1"].map (jsLookup kvs))
      chinese := pickFirst ([ "chinese", "Chinese", "meaning", "translation",
        "column2", "Column2"].map (jsLookup kvs))
      «example» := pickFirst ([ "example", "Example", "sentence", "Sentence",
        "column3", "Column3"].map (jsLookup kvs))
      tags := pickFirst ([ "tags", "Tags", "category", "Category"].map
        (jsLookup kvs)) }
  | _ => {}

/-- `normalizeSmartImportPlan` from `aiService.ts`: untrusted input in,
well-formed plan out.  The format falls back to `csv`; format-specific
delimiter defaults are applied; `fieldMap.english` falls back to
`column1`. -/
def normalizeSmartImportPlan (raw : JValue) : SmartImportPlan :=
  let formatCandidate :=
    match jsGetOpt raw "format" with
    | some (.str s) => jsLower s
    | _ => "csv"
  let format : ImportFormat :=
    if formatCandidate = "csv" then .csv
    else if formatCandidate = "tsv" then .tsv
    else if formatCandidate = "json" then .json
    else if formatCandidate = "text" then .text
    else .csv
  let delimiter0 := coerceField (jsGetOpt raw "delimiter")
  let hasHeader :=
    match jsGetOpt raw "hasHeader" with
    | some (.bool b) => some b
    | _ => none
  let skipRows :=
    match jsGetOpt raw "skipRows" with
    | some (.num n) => some n.toNat
    | _ => none
  let recordPath := coerceField (jsGetOpt raw "recordPath")
  let fieldMap0 := normalizeFieldMap (jsGetOpt raw "fieldMap")
  let notes := coerceField (jsGetOpt raw "notes")
  let confidence :=
    match jsGetOpt raw "confidence" with
    | some (.num n) => some n
    | _ => none
  let delimiter :=
    if format = .csv ∧ delimiter0 = none then some ","
    else if format = .tsv ∧ delimiter0 = none then some "\t"
    else if format = .text ∧ delimiter0 = none then some "\t"
    else delimiter0
  let fieldMap :=
    { fieldMap0 with
      english :=
        match fieldMap0.english with
        | none => some "column1"
        | some s => some s }
  { format := format, delimiter := delimiter, hasHeader := hasHeader,
    skipRows := skipRows, recordPath := recordPath, fieldMap := fieldMap,
    notes := notes, confidence := confidence }

/-! ## Basic lemmas about the string primitives -/

theorem dropWhile_length_le (p : α → Bool) (l : List α) :
    (l.dropWhile p).length ≤ l.length := by
  induction l with
  | nil => simp
  | cons a t ih =>
    by_cases h : p a
    · simp only [List.dropWhile_cons, h, if_true]
      exact Nat.le_succ_of_le ih
    · simp [List.dropWhile_cons, h]

theorem dropWhile_idem (p : α → Bool) (l : List α) :
    (l.dropWhile p).dropWhile p = l.dropWhile p := by
  induction l with
  | nil => simp
  | cons a t ih =>
    by_cases h : p a
    · simpa [List.dropWhile_cons, h] using ih
    · simp [List.dropWhile_cons, h]

theorem dropWhile_fixed_append_left (p : α → Bool) (B r : List α)
    (h : (B ++ r).dropWhile p = B ++ r) : B.dropWhile p = B := by
  cases B with
  | nil => simp
  | cons b t =>
    by_cases hb : p b
    · exfalso
      have hlen := dropWhile_length_le p (t ++ r)
      have h2 : List.dropWhile p (t ++ r) = b :: (t ++ r) := by
        simpa [List.dropWhile_cons, hb] using h
      have h3 := congrArg List.length h2
      simp only [List.length_cons] at h3
      omega
    · simp [List.dropWhile_cons, hb]

theorem dropTrailWhile_decomp (p : α → Bool) (l : List α) :
    ∃ r, l = dropTrailWhile p l ++ r := by
  obtain ⟨t, ht⟩ := List.dropWhile_suffix (l := l.reverse) p
  refine ⟨t.reverse, ?_⟩
  have : l.reverse.reverse = (t ++ l.reverse.dropWhile p).reverse := by rw [ht]
  simpa [dropTrailWhile] using this

theorem dropTrailWhile_idem (p : α → Bool) (l : List α) :
    dropTrailWhile p (dropTrailWhile p l) = dropTrailWhile p l := by
  simp [dropTrailWhile, dropWhile_idem]

theorem dropWhile_dropTrailWhile_fixed (p : α → Bool) (l : List α)
    (h : l.dropWhile p = l) : (dropTrailWhile p l).dropWhile p = dropTrailWhile p l := by
  obtain ⟨r, hr⟩ := dropTrailWhile_decomp p l
  exact dropWhile_fixed_append_left p _ r (by rw [← hr, h])

theorem jsTrim_idem (s : String) : jsTrim (jsTrim s) = jsTrim s := by
  show String.mk _ = String.mk _
  congr 1
  show dropTrailWhile isJsSpace
      ((dropTrailWhile isJsSpace ((s.data.dropWhile isJsSpace))).dropWhile isJsSpace) =
    dropTrailWhile isJsSpace (s.data.dropWhile isJsSpace)
  rw [dropWhile_dropTrailWhile_fixed isJsSpace _ (dropWhile_idem isJsSpace s.data),
    dropTrailWhile_idem]

theorem jsLower_eq_empty_iff (s : String) : jsLower s = "" ↔ s = "" := by
  constructor
  · intro h
    have hd := congrArg String.data h
    rcases s with ⟨l⟩
    cases l with
    | nil => rfl
    | cons c t => simp [jsLower] at hd
  · intro h
    subst h
    rfl

/-! ## C7 — quote handling in the delimited-line tokenizer -/

/-- The CSV line of Scenario E. -/
def scenarioELine : String := "\"hello, \"\"world\"\"\" ,你好"

/-- C7 (counterexample): on the Scenario E line the tokenizer does NOT
produce `hello, "world"` as the first field — the space between the
closing quote and the comma is kept, so the field carries a trailing
space.  This refutes the claim as stated. -/
theorem parseDelimitedLine_scenarioE_counterexample :
    parseDelimitedLine scenarioELine "," ≠ ["hello, \"world\"", "你好"] := by
  decide

/-- C7 (amended): the tokenizer treats a doubled quote inside a quoted
field as one escaped literal quote and a delimiter match outside quotes
ends the field; on the Scenario E line the first field unescapes to
`hello, "world" ` — including the trailing space before the comma, which
is preserved by the tokenizer — and the second field is `你好`. -/
theorem parseDelimitedLine_scenarioE :
    parseDelimitedLine scenarioELine "," = ["hello, \"world\" ", "你好"] := by
  decide

/-! ## C8 — Scenario B: heuristic recovery in the text format -/

/-- The plan of Scenario B. -/
def scenarioBPlan : SmartImportPlan :=
  { format := .text, delimiter := some "\t",
    fieldMap := { english := some "column1" } }

/-- C8: on the line `run\tv.\t跑` under the Scenario B plan the record's
raw tokens are `["run", "v.", "跑"]`; `chinese` resolves empty and is
recovered by the positional CJK fallback to `跑`, and the tags are
recovered positionally to `["v."]`, yielding english `run`, chinese `跑`,
tags `["v."]`. -/
theorem applySmartImportPlan_scenarioB :
    (extractRecords (fun _ => none) "run\tv.\t跑" scenarioBPlan).map recParts =
      [[.str "run", .str "v.", .str "跑"]] ∧
    applySmartImportPlan (fun _ => none) "run\tv.\t跑" scenarioBPlan
        "import-src" 0 (fun i => "w" ++ toString i) =
      [{ id := "w0", english := "run", chinese := "跑", «example» := none,
         tags := some ["v."], isMastered := 0, createdAt := 0,
         source := "import-src" }] := by
  exact ⟨rfl, by decide⟩

/-! ## C5 — the path resolver never throws and fails to empty string -/

/-- C5: `getValueByPath` is a total function (so it cannot throw), an
undefined or empty path yields `''`, and the segment loop yields `''`
when the current value is `undefined` (e.g. after a missing object key),
when an object lookup misses, when an array index is not a non-negative
in-range integer, and when traversal reaches `null` or a primitive. -/
theorem getValueByPath_safe :
    (∀ v : JValue, getValueByPath v none = .str "") ∧
    (∀ v : JValue, getValueByPath v (some "") = .str "") ∧
    (∀ segs : List String, resolvePath segs none = .str "") ∧
    (∀ kvs seg rest, jsLookup kvs seg = none →
      resolvePath (seg :: rest) (some (.obj kvs)) = .str "") ∧
    (∀ xs seg rest, (∀ i, parseIndexNat seg = some i → xs.length ≤ i) →
      resolvePath (seg :: rest) (some (.arr xs)) = .str "") ∧
    (∀ seg rest, resolvePath (seg :: rest) (some .null) = .str "") ∧
    (∀ seg rest s, resolvePath (seg :: rest) (some (.str s)) = .str "") ∧
    (∀ seg rest n, resolvePath (seg :: rest) (some (.num n)) = .str "") ∧
    (∀ seg rest b, resolvePath (seg :: rest) (some (.bool b)) = .str "") := by
  refine ⟨fun v => rfl, fun v => rfl, fun segs => ?_, ?_, ?_,
    fun seg rest => rfl, fun seg rest s => rfl, fun seg rest n => rfl,
    fun seg rest b => rfl⟩
  · cases segs <;> rfl
  · intro kvs seg rest h
    show resolvePath rest (jsLookup kvs seg) = .str ""
    rw [h]
    cases rest <;> rfl
  · intro xs seg rest h
    show (match parseIndexNat seg with
      | some i =>
        if hlt : i < xs.length then resolvePath rest (some (xs.get ⟨i, hlt⟩))
        else .str ""
      | none => .str "") = .str ""
    cases heq : parseIndexNat seg with
    | none => rfl
    | some i =>
      have := h i heq
      simp only [heq]
      rw [dif_neg (by omega)]

/-- C5 witness: concrete failing lookups evaluate to the empty string. -/
theorem getValueByPath_safe_witness :
    resolvePath ["k"] (some (.obj [("a", .str "x")])) = .str "" ∧
    resolvePath ["2"] (some (.arr [.num 5])) = .str "" := by
  constructor
  · exact getValueByPath_safe.2.2.2.1 [("a", .str "x")] "k" [] rfl
  · refine getValueByPath_safe.2.2.2.2.1 [.num 5] "2" [] ?_
    intro i hi
    have h2 : parseIndexNat "2" = some 2 := by decide
    rw [h2] at hi
    injection hi with hi'
    rw [← hi']
    decide

/-! ## C6 — JSONL recovery on top-level parse failure -/

/-- First well-formed line of the Scenario F input. -/
def jsonlLine1 : String := "\x7b\"w\":\"apple\"\x7d"

/-- Second well-formed line of the Scenario F input. -/
def jsonlLine2 : String := "\x7b\"w\":\"banana\"\x7d"

/-- The malformed trailing line of the Scenario F input. -/
def jsonlBad : String := "\x7b oops"

/-- The Scenario F raw input: two newline-separated JSON objects not
wrapped in an array, plus one malformed trailing line. -/
def jsonlSample : String := jsonlLine1 ++ "\n" ++ jsonlLine2 ++ "\n" ++ jsonlBad

/-- C6: when top-level JSON parsing fails, `parseJsonRecords` splits the
input into non-blank trimmed lines, parses each independently, silently
drops the failures and keeps the parsed objects; on the Scenario F input
(two valid object lines plus a malformed trailing line) it returns
exactly the two records. -/
theorem parseJsonRecords_fallback :
    (∀ (jsonParse : String → Option JValue) rawData recordPath,
      jsonParse rawData = none →
      parseJsonRecords jsonParse rawData recordPath =
        (((splitLinesJs rawData).map jsTrim).filter (· ≠ "")).filterMap
          (fun line =>
            match jsonParse line with
            | some v => if isObjLike v then some v else none
            | none => none)) ∧
    (∀ (jsonParse : String → Option JValue) recordPath v1 v2,
      jsonParse jsonlSample = none →
      jsonParse jsonlLine1 = some v1 → isObjLike v1 = true →
      jsonParse jsonlLine2 = some v2 → isObjLike v2 = true →
      jsonParse jsonlBad = none →
      parseJsonRecords jsonParse jsonlSample recordPath = [v1, v2]) := by
  have base : ∀ (jsonParse : String → Option JValue) rawData recordPath,
      jsonParse rawData = none →
      parseJsonRecords jsonParse rawData recordPath =
        (((splitLinesJs rawData).map jsTrim).filter (· ≠ "")).filterMap
          (fun line =>
            match jsonParse line with
            | some v => if isObjLike v then some v else none
            | none => none) := by
    intro jp raw rp h
    unfold parseJsonRecords
    rw [h]
  refine ⟨base, ?_⟩
  intro jp rp v1 v2 hfail h1 ho1 h2 ho2 hbad
  rw [base jp jsonlSample rp hfail]
  have hlines : (((splitLinesJs jsonlSample).map jsTrim).filter (· ≠ "")) =
      [jsonlLine1, jsonlLine2, jsonlBad] := by decide
  rw [hlines]
  simp [List.filterMap, h1, h2, hbad, ho1, ho2]

/-- A concrete `JSON.parse` model for the Scenario F strings. -/
def jsonlParseWitness : String → Option JValue := fun s =>
  if s = jsonlLine1 then some (.obj [("w", .str "apple")])
  else if s = jsonlLine2 then some (.obj [("w", .str "banana")])
  else none

/-- C6 witness: the Scenario F recovery evaluated at a concrete parser. -/
theorem parseJsonRecords_fallback_witness :
    parseJsonRecords jsonlParseWitness jsonlSample none =
      [.obj [("w", .str "apple")], .obj [("w", .str "banana")]] :=
  parseJsonRecords_fallback.2 jsonlParseWitness none _ _ rfl rfl rfl rfl rfl rfl

/-! ## C4 — the plan normalizer is total and conservative -/

theorem coerceField_ne_empty (v : Option JValue) (s : String)
    (h : coerceField v = some s) : s ≠ "" := by
  match v with
  | none => simp [coerceField] at h
  | some .null | some (.bool _) | some (.num _) | some (.arr _)
  | some (.obj _) => simp [coerceField] at h
  | some (.str t) =>
    by_cases ht : jsTrim t ≠ ""
    · have : s = jsTrim t := by simpa [coerceField, ht] using h.symm
      rw [this]
      exact ht
    · simp [coerceField, ht] at h

theorem pickFirst_ne_empty (cs : List (Option JValue)) (s : String)
    (h : pickFirst cs = some s) : s ≠ "" := by
  induction cs with
  | nil => simp [pickFirst] at h
  | cons c rest ih =>
    unfold pickFirst at h
    cases hc : coerceField c with
    | some t =>
      rw [hc] at h
      injection h with h'
      rw [← h']
      exact coerceField_ne_empty c t hc
    | none =>
      rw [hc] at h
      exact ih h

theorem normalizeFieldMap_english_ne_empty (v : Option JValue) (s : String)
    (h : (normalizeFieldMap v).english = some s) : s ≠ "" := by
  match v with
  | none => simp [normalizeFieldMap] at h
  | some .null | some (.bool _) | some (.num _) | some (.str _)
  | some (.arr _) => simp [normalizeFieldMap] at h
  | some (.obj kvs) => exact pickFirst_ne_empty _ s h

/-- C4: for every input value the plan normalizer is a total function
(it cannot throw); its output format is one of csv/tsv/json/text; the
resulting `fieldMap.english` is always a non-empty string; and for an
absent (`null`) or empty-object input it produces the conservative
default — format csv, comma delimiter, header assumed (the downstream
`hasHeader ?? true` reads `true`), english mapped to `column1`. -/
theorem normalizeSmartImportPlan_safe :
    (∀ raw, ∃ s, (normalizeSmartImportPlan raw).fieldMap.english = some s ∧
      s ≠ "") ∧
    (∀ raw, (normalizeSmartImportPlan raw).format = .csv ∨
      (normalizeSmartImportPlan raw).format = .tsv ∨
      (normalizeSmartImportPlan raw).format = .json ∨
      (normalizeSmartImportPlan raw).format = .text) ∧
    ((normalizeSmartImportPlan .null).format = .csv ∧
     (normalizeSmartImportPlan .null).delimiter = some "," ∧
     (normalizeSmartImportPlan .null).hasHeader.getD true = true ∧
     (normalizeSmartImportPlan .null).fieldMap.english = some "column1") ∧
    ((normalizeSmartImportPlan (.obj [])).format = .csv ∧
     (normalizeSmartImportPlan (.obj [])).delimiter = some "," ∧
     (normalizeSmartImportPlan (.obj [])).hasHeader.getD true = true ∧
     (normalizeSmartImportPlan (.obj [])).fieldMap.english = some "column1") := by
  refine ⟨?_, ?_, by decide, by decide⟩
  · intro raw
    cases h : (normalizeFieldMap (jsGetOpt raw "fieldMap")).english with
    | none =>
      refine ⟨"column1", ?_, by simp⟩
      simp [normalizeSmartImportPlan, h]
    | some t =>
      refine ⟨t, ?_, normalizeFieldMap_english_ne_empty _ t h⟩
      simp [normalizeSmartImportPlan, h]
  · intro raw
    cases h : (normalizeSmartImportPlan raw).format
    · exact Or.inl rfl
    · exact Or.inr (Or.inl rfl)
    · exact Or.inr (Or.inr (Or.inl rfl))
    · exact Or.inr (Or.inr (Or.inr rfl))

/-! ## C10 — the delimiter field only matters for the text format -/

/-- C10: for csv, tsv and json plans the extracted records do not depend
on the plan's `delimiter` field at all (csv rows are tokenized with the
literal comma, tsv rows with the literal tab); for the text format an
unset or empty delimiter defaults to tab; and a csv plan carrying a
non-comma delimiter still tokenizes with the comma (so a `;`-delimited
line stays one field). -/
theorem extractRecords_delimiter_influence :
    (∀ jsonParse rawData (plan : SmartImportPlan) d, plan.format ≠ .text →
      extractRecords jsonParse rawData { plan with delimiter := d } =
        extractRecords jsonParse rawData plan) ∧
    (∀ jsonParse rawData (plan : SmartImportPlan), plan.format = .text →
      extractRecords jsonParse rawData { plan with delimiter := none } =
        extractRecords jsonParse rawData { plan with delimiter := some "\t" } ∧
      extractRecords jsonParse rawData { plan with delimiter := some "" } =
        extractRecords jsonParse rawData { plan with delimiter := some "\t" }) ∧
    (∀ jsonParse d,
      extractRecords jsonParse "a;一"
        { format := .csv, delimiter := d, hasHeader := some false,
          fieldMap := { english := some "column1" } } =
      [delimitedRecord ["column1"] ["a;一"]]) := by
  refine ⟨?_, ?_, ?_⟩
  · intro jp raw plan d hf
    cases h : plan.format with
    | text => exact absurd h hf
    | csv => simp [extractRecords, h]
    | tsv => simp [extractRecords, h]
    | json => simp [extractRecords, h]
  · intro jp raw plan hf
    constructor <;> simp [extractRecords, hf]
  · intro jp d
    rfl

/-- C10 witness: the delimiter field of a csv plan and of a json plan is
ignored, and a text plan with no delimiter splits on tab. -/
theorem extractRecords_delimiter_influence_witness :
    extractRecords (fun _ => none) "x,y"
        { format := .csv, delimiter := some "|", hasHeader := some false,
          fieldMap := {} } =
      extractRecords (fun _ => none) "x,y"
        { format := .csv, hasHeader := some false, fieldMap := {} } ∧
    extractRecords (fun _ => none) "a\tb"
        { format := .text, delimiter := none, fieldMap := {} } =
      extractRecords (fun _ => none) "a\tb"
        { format := .text, delimiter := some "\t", fieldMap := {} } := by
  constructor
  · exact extractRecords_delimiter_influence.1 (fun _ => none) "x,y"
      { format := .csv, hasHeader := some false, fieldMap := {} }
      (some "|") (by decide)
  · exact (extractRecords_delimiter_influence.2.1 (fun _ => none) "a\tb"
      { format := .text, delimiter := none, fieldMap := {} } rfl).1

/-! ## Merge lemmas -/

theorem mergeNovelAux_sublist (ids engs : List String) (ws : List WordItem) :
    (mergeNovelAux ids engs ws).Sublist ws := by
  induction ws generalizing ids engs with
  | nil => simp [mergeNovelAux]
  | cons w ws ih =>
    unfold mergeNovelAux
    by_cases h1 : mergeKey w = ""
    · simp only [h1, if_true]
      exact (ih ids engs).cons w
    · by_cases h2 : w.id ∈ ids ∨ mergeKey w ∈ engs
      · simp only [h1, if_false, h2, if_true]
        exact (ih ids engs).cons w
      · simp only [h1, if_false, h2]
        exact (ih (w.id :: ids) (mergeKey w :: engs)).cons₂ w

theorem mergeImportedWords_decomp (prev incoming : List WordItem) :
    (mergeImportedWords prev incoming).2 =
      mergeNovelAux (mergeSeenIds prev) (mergeSeenEnglish prev) incoming ++ prev ∧
    (mergeImportedWords prev incoming).1 =
      (mergeNovelAux (mergeSeenIds prev) (mergeSeenEnglish prev) incoming).length := by
  constructor <;>
  · unfold mergeImportedWords
    by_cases he : incoming.isEmpty
    · have : incoming = [] := List.isEmpty_iff.mp he
      subst this
      simp [mergeNovelAux]
    · simp only [he, if_false]
      by_cases hn : (mergeNovelAux (mergeSeenIds prev) (mergeSeenEnglish prev)
          incoming).isEmpty
      · have h0 := List.isEmpty_iff.mp hn
        simp [hn, h0]
      · simp [hn]

/-- C2: the merged output is exactly the accepted (novel) candidates
prepended as a block before the untouched existing list; the inserted
count is the number of novel items; and the novel items form a sublist
of the incoming candidate sequence, so their relative order equals their
relative extraction order. -/
theorem mergeImportedWords_order (prev incoming : List WordItem) :
    (mergeImportedWords prev incoming).2 =
      mergeNovelAux (mergeSeenIds prev) (mergeSeenEnglish prev) incoming ++ prev ∧
    (mergeImportedWords prev incoming).1 =
      (mergeNovelAux (mergeSeenIds prev) (mergeSeenEnglish prev) incoming).length ∧
    (mergeNovelAux (mergeSeenIds prev) (mergeSeenEnglish prev) incoming).Sublist
      incoming :=
  ⟨(mergeImportedWords_decomp prev incoming).1,
   (mergeImportedWords_decomp prev incoming).2,
   mergeNovelAux_sublist _ _ incoming⟩

theorem mergeNovelAux_mem_sound (ws : List WordItem) :
    ∀ (ids engs : List String), ∀ w ∈ mergeNovelAux ids engs ws,
      mergeKey w ≠ "" ∧ w.id ∉ ids ∧ mergeKey w ∉ engs := by
  induction ws with
  | nil => intro ids engs w hw; simp [mergeNovelAux] at hw
  | cons h t ih =>
    intro ids engs w hw
    unfold mergeNovelAux at hw
    by_cases h1 : mergeKey h = ""
    · simp only [h1, if_true] at hw
      exact ih ids engs w hw
    · by_cases h2 : h.id ∈ ids ∨ mergeKey h ∈ engs
      · simp only [h1, if_false, h2, if_true] at hw
        exact ih ids engs w hw
      · simp only [h1, if_false, h2] at hw
        rcases List.mem_cons.mp hw with hw | hw
        · subst hw
          push_neg at h2
          exact ⟨h1, h2.1, h2.2⟩
        · have := ih (h.id :: ids) (mergeKey h :: engs) w hw
          refine ⟨this.1, fun hm => this.2.1 ?_, fun hm => this.2.2 ?_⟩
          · exact List.mem_cons_of_mem _ hm
          · exact List.mem_cons_of_mem _ hm

theorem mergeNovelAux_keys_nodup (ws : List WordItem) :
    ∀ (ids engs : List String),
      ((mergeNovelAux ids engs ws).map mergeKey).Nodup := by
  induction ws with
  | nil => intro ids engs; simp [mergeNovelAux]
  | cons h t ih =>
    intro ids engs
    unfold mergeNovelAux
    by_cases h1 : mergeKey h = ""
    · simp only [h1, if_true]
      exact ih ids engs
    · by_cases h2 : h.id ∈ ids ∨ mergeKey h ∈ engs
      · simp only [h1, if_false, h2, if_true]
        exact ih ids engs
      · simp only [h1, if_false, h2, List.map_cons]
        refine List.Nodup.cons ?_ (ih (h.id :: ids) (mergeKey h :: engs))
        intro hmem
        rcases List.mem_map.mp hmem with ⟨w, hw, hkey⟩
        have := (mergeNovelAux_mem_sound t (h.id :: ids) (mergeKey h :: engs)
          w hw).2.2
        exact this (hkey ▸ List.mem_cons_self _ _)

theorem mergeNovelAux_complete (ws : List WordItem) :
    ∀ (ids engs : List String) (w : WordItem), w ∈ ws → mergeKey w ≠ "" →
      w.id ∉ ids → mergeKey w ∉ engs →
      (∀ v ∈ ws, v ≠ w → v.id ≠ w.id ∧ mergeKey v ≠ mergeKey w) →
      w ∈ mergeNovelAux ids engs ws := by
  induction ws with
  | nil => intro ids engs w hw; simp at hw
  | cons h t ih =>
    intro ids engs w hw hk hid heng hothers
    unfold mergeNovelAux
    by_cases hhw : h = w
    · subst hhw
      rw [if_neg hk, if_neg (by push_neg; exact ⟨hid, heng⟩)]
      exact List.mem_cons_self _ _
    · have hwt : w ∈ t := by
        rcases List.mem_cons.mp hw with hw' | hw'
        · exact absurd hw'.symm hhw
        · exact hw'
      have hoth := hothers h (List.mem_cons_self _ _) hhw
      have hothers' : ∀ v ∈ t, v ≠ w → v.id ≠ w.id ∧ mergeKey v ≠ mergeKey w :=
        fun v hv => hothers v (List.mem_cons_of_mem _ hv)
      by_cases h1 : mergeKey h = ""
      · rw [if_pos h1]
        exact ih ids engs w hwt hk hid heng hothers'
      · by_cases h2 : h.id ∈ ids ∨ mergeKey h ∈ engs
        · rw [if_neg h1, if_pos h2]
          exact ih ids engs w hwt hk hid heng hothers'
        · rw [if_neg h1, if_neg h2]
          refine List.mem_cons_of_mem _ (ih (h.id :: ids) (mergeKey h :: engs)
            w hwt hk ?_ ?_ hothers')
          · intro hm
            rcases List.mem_cons.mp hm with hm | hm
            · exact hoth.1 hm.symm
            · exact hid hm
          · intro hm
            rcases List.mem_cons.mp hm with hm | hm
            · exact hoth.2 hm.symm
            · exact heng hm

theorem mergeNovelAux_all_skipped (ws : List WordItem) (ids engs : List String)
    (h : ∀ w ∈ ws, mergeKey w = "" ∨ mergeKey w ∈ engs) :
    mergeNovelAux ids engs ws = [] := by
  induction ws with
  | nil => rfl
  | cons w t ih =>
    unfold mergeNovelAux
    rcases h w (List.mem_cons_self _ _) with h1 | h1
    · simp only [h1]
      exact ih (fun v hv => h v (List.mem_cons_of_mem _ hv))
    · by_cases h0 : mergeKey w = ""
      · simp only [h0, if_true]
        exact ih (fun v hv => h v (List.mem_cons_of_mem _ hv))
      · simp only [h0, if_false, if_pos (Or.inr h1)]
        exact ih (fun v hv => h v (List.mem_cons_of_mem _ hv))

theorem mergeImportedWords_skip_all (prev incoming : List WordItem)
    (h : ∀ w ∈ incoming, mergeKey w = "" ∨ mergeKey w ∈ mergeSeenEnglish prev) :
    mergeImportedWords prev incoming = (0, prev) := by
  unfold mergeImportedWords
  by_cases he : incoming.isEmpty
  · simp [he]
  · simp [he, mergeNovelAux_all_skipped incoming _ _ h]

theorem mergeNovelAux_key_covered (ws : List WordItem) :
    ∀ (ids engs : List String), ((ws.map (·.id)).Nodup) →
      (∀ w ∈ ws, w.id ∉ ids) → ∀ w ∈ ws, mergeKey w ≠ "" →
      mergeKey w ∈ engs ∨ mergeKey w ∈ (mergeNovelAux ids engs ws).map mergeKey := by
  induction ws with
  | nil => intro ids engs _ _ w hw; simp at hw
  | cons h t ih =>
    intro ids engs hnd hfresh w hw hk
    have hndt : (t.map (·.id)).Nodup := (List.nodup_cons.mp hnd).2
    have hidh : h.id ∉ t.map (·.id) := (List.nodup_cons.mp hnd).1
    have hfresht : ∀ v ∈ t, v.id ∉ ids :=
      fun v hv => hfresh v (List.mem_cons_of_mem _ hv)
    unfold mergeNovelAux
    by_cases h1 : mergeKey h = ""
    · rw [if_pos h1]
      rcases List.mem_cons.mp hw with hw' | hw'
      · exact absurd (hw' ▸ h1) hk
      · exact ih ids engs hndt hfresht w hw' hk
    · have hidns : h.id ∉ ids := hfresh h (List.mem_cons_self _ _)
      by_cases h2 : mergeKey h ∈ engs
      · rw [if_neg h1, if_pos (Or.inr h2)]
        rcases List.mem_cons.mp hw with hw' | hw'
        · exact Or.inl (hw' ▸ h2)
        · exact ih ids engs hndt hfresht w hw' hk
      · rw [if_neg h1, if_neg (by push_neg; exact ⟨hidns, h2⟩), List.map_cons]
        rcases List.mem_cons.mp hw with hw' | hw'
        · subst hw'
          exact Or.inr (List.mem_cons_self _ _)
        · have hfresh' : ∀ v ∈ t, v.id ∉ h.id :: ids := by
            intro v hv hm
            rcases List.mem_cons.mp hm with hm | hm
            · exact hidh (hm ▸ List.mem_map_of_mem (·.id) hv)
            · exact hfresht v hv hm
          rcases ih (h.id :: ids) (mergeKey h :: engs) hndt hfresh' w hw' hk with
            hc | hc
          · rcases List.mem_cons.mp hc with hc | hc
            · exact Or.inr (List.mem_cons.mpr (Or.inl hc))
            · exact Or.inl hc
          · exact Or.inr (List.mem_cons.mpr (Or.inr hc))

/-! ## C1 — dedup behaviour of the merge -/

/-- A minimal `WordItem` for concrete merge scenarios. -/
def ceItem (id english : String) : WordItem :=
  { id := id, english := english, chinese := "", «example» := none,
    tags := none, isMastered := 0, createdAt := 0, source := "s" }

/-- C1 (counterexample): the claim fails on the code in two ways.
(1) The existing dedup keys are lower-cased but NOT trimmed: with an
existing item `" Apple "` the candidate `"apple"` is inserted, and the
merged output contains two items with the same case-insensitive trimmed
English key.  (2) A candidate is also skipped when its `id` collides
with an existing id: with existing `⟨id "x", "pear"⟩` the candidate
`⟨id "x", "plum"⟩` is skipped even though its key is non-empty, absent
from the existing keys and first in its batch — so the claimed "exactly
when" characterisation does not hold either. -/
theorem mergeImportedWords_claim_counterexample :
    ((mergeImportedWords [ceItem "a" " Apple "] [ceItem "b" "apple"]).2.map
      mergeKey) = ["apple", "apple"] ∧
    ¬ ((mergeImportedWords [ceItem "a" " Apple "] [ceItem "b" "apple"]).2.map
      mergeKey).Nodup ∧
    (mergeImportedWords [ceItem "x" "pear"] [ceItem "x" "plum"]).1 = 0 := by
  decide

/-- C1 (amended): a candidate is skipped exactly when its trimmed
lower-cased English is empty, or its id is already taken (by an existing
item or an earlier accepted candidate), or its key equals the lower-cased
(untrimmed) English of an existing item or the key of an earlier accepted
candidate.  Consequently, when every existing item is stored with trimmed
English and the existing keys are pairwise distinct, no two items of the
merged output share the case-insensitive trimmed English key.  Stated
here as: (1) under those hypotheses the merged output's keys are nodup;
(2) every accepted candidate has a non-empty key, a fresh id and a key
absent from the existing collection; (3) every candidate with a non-empty
key, a fresh id, a key absent from the existing collection and no id/key
conflict with other candidates is accepted. -/
theorem mergeImportedWords_dedup (prev incoming : List WordItem)
    (htrim : ∀ w ∈ prev, jsTrim w.english = w.english)
    (hnd : (prev.map mergeKey).Nodup) :
    ((mergeImportedWords prev incoming).2.map mergeKey).Nodup ∧
    (∀ w ∈ mergeNovelAux (mergeSeenIds prev) (mergeSeenEnglish prev) incoming,
      mergeKey w ≠ "" ∧ w.id ∉ mergeSeenIds prev ∧
      mergeKey w ∉ prev.map mergeKey) ∧
    (∀ w ∈ incoming, mergeKey w ≠ "" → w.id ∉ mergeSeenIds prev →
      mergeKey w ∉ prev.map mergeKey →
      (∀ v ∈ incoming, v ≠ w → v.id ≠ w.id ∧ mergeKey v ≠ mergeKey w) →
      w ∈ mergeNovelAux (mergeSeenIds prev) (mergeSeenEnglish prev) incoming) := by
  have hseen : mergeSeenEnglish prev = prev.map mergeKey := by
    unfold mergeSeenEnglish
    refine List.map_congr_left ?_
    intro w hw
    unfold mergeKey
    rw [htrim w hw]
  have sound : ∀ w ∈ mergeNovelAux (mergeSeenIds prev) (mergeSeenEnglish prev)
      incoming, mergeKey w ≠ "" ∧ w.id ∉ mergeSeenIds prev ∧
      mergeKey w ∉ prev.map mergeKey := by
    intro w hw
    have := mergeNovelAux_mem_sound incoming (mergeSeenIds prev)
      (mergeSeenEnglish prev) w hw
    exact ⟨this.1, this.2.1, by rw [← hseen]; exact this.2.2⟩
  refine ⟨?_, sound, ?_⟩
  · rw [(mergeImportedWords_decomp prev incoming).1, List.map_append]
    refine List.Nodup.append (mergeNovelAux_keys_nodup incoming _ _) hnd ?_
    intro k hk1 hk2
    rcases List.mem_map.mp hk1 with ⟨w, hw, hkey⟩
    exact (sound w hw).2.2 (hkey ▸ hk2)
  · intro w hw hk hid heng hothers
    exact mergeNovelAux_complete incoming (mergeSeenIds prev)
      (mergeSeenEnglish prev) w hw hk hid (hseen ▸ heng) hothers

/-- C1 witness: the amended dedup theorem at a concrete trimmed,
duplicate-free existing collection. -/
theorem mergeImportedWords_dedup_witness :
    ((mergeImportedWords [ceItem "a" "apple"] [ceItem "b" "Banana"]).2.map
      mergeKey).Nodup ∧
    ceItem "b" "Banana" ∈ mergeNovelAux (mergeSeenIds [ceItem "a" "apple"])
      (mergeSeenEnglish [ceItem "a" "apple"]) [ceItem "b" "Banana"] := by
  have h := mergeImportedWords_dedup [ceItem "a" "apple"] [ceItem "b" "Banana"]
    (by decide) (by decide)
  refine ⟨h.1, h.2.2 (ceItem "b" "Banana") (by decide) (by decide) (by decide)
    (by decide) ?_⟩
  intro v hv hne
  rcases List.mem_cons.mp hv with hv | hv
  · exact absurd hv hne
  · simp at hv

/-! ## C3 — idempotence of apply + merge -/

theorem mapOne_map_english (fm : SmartImportFieldMap) (lbl : String)
    (now : Nat) (uuid : Nat → String) (p : Nat × JValue) :
    (mapOne fm lbl now uuid p).map (·.english) =
      if jsTrim (coerceToString (getValueByPath p.2 fm.english)) = "" then none
      else some (jsTrim (coerceToString (getValueByPath p.2 fm.english))) := by
  by_cases h : jsTrim (coerceToString (getValueByPath p.2 fm.english)) = ""
  · simp [mapOne, h]
  · simp [mapOne, h]

theorem mapOne_eq_some (fm : SmartImportFieldMap) (lbl : String) (now : Nat)
    (uuid : Nat → String) (p : Nat × JValue) (w : WordItem)
    (h : mapOne fm lbl now uuid p = some w) :
    w.english = jsTrim (coerceToString (getValueByPath p.2 fm.english)) ∧
    w.english ≠ "" ∧ w.id = uuid p.1 := by
  by_cases he : jsTrim (coerceToString (getValueByPath p.2 fm.english)) = ""
  · simp [mapOne, he] at h
  · have hid := congrArg (Option.map (·.id)) h
    have hen := congrArg (Option.map (·.english)) h
    simp only [mapOne, he, if_false, Option.map_some] at hid hen
    injection hid with hid
    injection hen with hen
    exact ⟨hen.symm, fun h0 => he (hen.trans h0), hid.symm⟩

theorem applySmartImportPlan_map_english (jp : String → Option JValue)
    (raw : String) (plan : SmartImportPlan) (lbl : String) (n1 n2 : Nat)
    (u1 u2 : Nat → String) :
    (applySmartImportPlan jp raw plan lbl n1 u1).map (·.english) =
      (applySmartImportPlan jp raw plan lbl n2 u2).map (·.english) := by
  simp only [applySmartImportPlan]
  by_cases h : (extractRecords jp raw plan).isEmpty
  · rw [if_pos h, if_pos h]
  · rw [if_neg h, if_neg h]
    rw [List.map_filterMap, List.map_filterMap]
    have : (fun p => (mapOne plan.fieldMap lbl n1 u1 p).map (·.english)) =
        fun p => (mapOne plan.fieldMap lbl n2 u2 p).map (·.english) := by
      funext p
      rw [mapOne_map_english, mapOne_map_english]
    rw [this]

theorem applySmartImportPlan_trimmed (jp : String → Option JValue)
    (raw : String) (plan : SmartImportPlan) (lbl : String) (now : Nat)
    (uuid : Nat → String) :
    ∀ w ∈ applySmartImportPlan jp raw plan lbl now uuid,
      jsTrim w.english = w.english ∧ w.english ≠ "" := by
  intro w hw
  simp only [applySmartImportPlan] at hw
  by_cases h : (extractRecords jp raw plan).isEmpty
  · rw [if_pos h] at hw
    simp at hw
  · rw [if_neg h] at hw
    rcases List.mem_filterMap.mp hw with ⟨p, _, hmo⟩
    obtain ⟨heq, hne, _⟩ := mapOne_eq_some plan.fieldMap lbl now uuid p w hmo
    exact ⟨by rw [heq]; exact jsTrim_idem _, hne⟩

theorem filterMap_guard_nodup {β γ : Type _} (l : List (Nat × β)) (f : Nat → γ)
    (P : Nat × β → Prop) [DecidablePred P]
    (hinj : ∀ i j, f i = f j → i = j) (hl : (l.map Prod.fst).Nodup) :
    (l.filterMap (fun p => if P p then none else some (f p.1))).Nodup := by
  induction l with
  | nil => simp
  | cons p t ih =>
    have hl' : (p.1 :: t.map Prod.fst).Nodup := by simpa using hl
    have hnd := List.nodup_cons.mp hl'
    by_cases hp : P p
    · simp only [List.filterMap_cons, if_pos hp]
      exact ih hnd.2
    · simp only [List.filterMap_cons, if_neg hp]
      refine List.Nodup.cons ?_ (ih hnd.2)
      intro hmem
      rcases List.mem_filterMap.mp hmem with ⟨q, hq, hfq⟩
      by_cases hPq : P q
      · rw [if_pos hPq] at hfq
        exact Option.noConfusion hfq
      · rw [if_neg hPq] at hfq
        injection hfq with hfq
        have hq1 : q.1 = p.1 := hinj _ _ hfq
        exact hnd.1 (hq1 ▸ List.mem_map_of_mem Prod.fst hq)

theorem applySmartImportPlan_ids_nodup (jp : String → Option JValue)
    (raw : String) (plan : SmartImportPlan) (lbl : String) (now : Nat)
    (uuid : Nat → String) (hinj : ∀ i j, uuid i = uuid j → i = j) :
    ((applySmartImportPlan jp raw plan lbl now uuid).map (·.id)).Nodup := by
  simp only [applySmartImportPlan]
  by_cases h : (extractRecords jp raw plan).isEmpty
  · rw [if_pos h]
    simp
  · rw [if_neg h]
    rw [List.map_filterMap]
    have heq : (fun p => (mapOne plan.fieldMap lbl now uuid p).map (·.id)) =
        fun p : Nat × JValue =>
          if jsTrim (coerceToString (getValueByPath p.2 plan.fieldMap.english)) = ""
          then none else some (uuid p.1) := by
      funext p
      by_cases he :
          jsTrim (coerceToString (getValueByPath p.2 plan.fieldMap.english)) = ""
      · simp [mapOne, he]
      · simp [mapOne, he]
    rw [heq]
    exact filterMap_guard_nodup _ uuid _ hinj
      (by rw [List.enum_map_fst]; exact List.nodup_range _)

theorem applySmartImportPlan_ids_fresh (jp : String → Option JValue)
    (raw : String) (plan : SmartImportPlan) (lbl : String) (now : Nat)
    (uuid : Nat → String) (S : List String) (hfresh : ∀ i, uuid i ∉ S) :
    ∀ w ∈ applySmartImportPlan jp raw plan lbl now uuid, w.id ∉ S := by
  intro w hw
  simp only [applySmartImportPlan] at hw
  by_cases h : (extractRecords jp raw plan).isEmpty
  · rw [if_pos h] at hw
    simp at hw
  · rw [if_neg h] at hw
    rcases List.mem_filterMap.mp hw with ⟨p, _, hmo⟩
    obtain ⟨_, _, hid⟩ := mapOne_eq_some plan.fieldMap lbl now uuid p w hmo
    rw [hid]
    exact hfresh p.1

/-- C3: running `applySmartImportPlan` followed by `mergeImportedWords`
twice in sequence with identical raw input and plan — the second merge
taking the first merge's output as the existing collection — inserts
nothing on the second run and leaves the collection unchanged.  The
hypotheses model `crypto.randomUUID`: the ids drawn during the first run
are pairwise distinct and do not collide with the existing collection's
ids.  (The second run's ids are unconstrained.) -/
theorem applyPlan_mergeImported_idempotent (jp : String → Option JValue)
    (raw : String) (plan : SmartImportPlan) (lbl : String)
    (existing : List WordItem) (n1 n2 : Nat) (u1 u2 : Nat → String)
    (hinj : ∀ i j, u1 i = u1 j → i = j)
    (hfresh : ∀ i, u1 i ∉ existing.map (·.id)) :
    mergeImportedWords
        (mergeImportedWords existing (applySmartImportPlan jp raw plan lbl n1 u1)).2
        (applySmartImportPlan jp raw plan lbl n2 u2) =
      (0,
        (mergeImportedWords existing (applySmartImportPlan jp raw plan lbl n1 u1)).2) := by
  set c1 := applySmartImportPlan jp raw plan lbl n1 u1 with hc1
  set c2 := applySmartImportPlan jp raw plan lbl n2 u2 with hc2
  set w1 := (mergeImportedWords existing c1).2 with hw1def
  set novel := mergeNovelAux (mergeSeenIds existing) (mergeSeenEnglish existing) c1
    with hnoveldef
  apply mergeImportedWords_skip_all
  intro w hw
  right
  have htrim2 := applySmartImportPlan_trimmed jp raw plan lbl n2 u2 w hw
  have hkey : mergeKey w = jsLower w.english := by
    unfold mergeKey
    rw [htrim2.1]
  have hmem1 : w.english ∈ c1.map (·.english) := by
    rw [hc1, ← applySmartImportPlan_map_english jp raw plan lbl n2 n1 u2 u1]
    exact List.mem_map_of_mem _ hw
  rcases List.mem_map.mp hmem1 with ⟨w', hw', heq⟩
  have htrim1 := applySmartImportPlan_trimmed jp raw plan lbl n1 u1 w' hw'
  have hkey' : mergeKey w' = jsLower w'.english := by
    unfold mergeKey
    rw [htrim1.1]
  have hk'ne : mergeKey w' ≠ "" := by
    rw [hkey']
    intro h0
    exact htrim1.2 ((jsLower_eq_empty_iff w'.english).mp h0)
  have hnd : (c1.map (·.id)).Nodup :=
    applySmartImportPlan_ids_nodup jp raw plan lbl n1 u1 hinj
  have hfr : ∀ v ∈ c1, v.id ∉ mergeSeenIds existing :=
    applySmartImportPlan_ids_fresh jp raw plan lbl n1 u1
      (mergeSeenIds existing) (by simpa [mergeSeenIds] using hfresh)
  have hcov := mergeNovelAux_key_covered c1 (mergeSeenIds existing)
    (mergeSeenEnglish existing) hnd hfr w' hw' hk'ne
  have hseenApp : ∀ a b : List WordItem,
      mergeSeenEnglish (a ++ b) = mergeSeenEnglish a ++ mergeSeenEnglish b := by
    intro a b
    unfold mergeSeenEnglish
    exact List.map_append _ a b
  have hseenw1 : mergeSeenEnglish w1 =
      mergeSeenEnglish novel ++ mergeSeenEnglish existing := by
    rw [hw1def, (mergeImportedWords_decomp existing c1).1, hseenApp]
  have hkk : mergeKey w = mergeKey w' := by
    rw [hkey, hkey', heq]
  rw [hseenw1]
  rcases hcov with hc | hc
  · exact List.mem_append.mpr (Or.inr (hkk ▸ hc))
  · refine List.mem_append.mpr (Or.inl ?_)
    have hmk : novel.map mergeKey = mergeSeenEnglish novel := by
      unfold mergeSeenEnglish
      refine List.map_congr_left ?_
      intro x hx
      have hxc1 : x ∈ c1 := (mergeNovelAux_sublist _ _ c1).subset hx
      have hxt := (applySmartImportPlan_trimmed jp raw plan lbl n1 u1 x hxc1).1
      unfold mergeKey
      rw [hxt]
    rw [hkk, ← hmk]
    exact hc

/-- C3 witness: a concrete csv import applied twice against an empty
collection; the second merge inserts nothing and returns the first
merge's collection unchanged. -/
theorem applyPlan_mergeImported_idempotent_witness :
    mergeImportedWords
        (mergeImportedWords []
          (applySmartImportPlan (fun _ => none) "word,词"
            { format := .csv, hasHeader := some false,
              fieldMap := { english := some "column1", chinese := some "column2" } }
            "import-a" 0 (fun i => String.mk (List.replicate i 'u')))).2
        (applySmartImportPlan (fun _ => none) "word,词"
          { format := .csv, hasHeader := some false,
            fieldMap := { english := some "column1", chinese := some "column2" } }
          "import-b" 5 (fun i => String.mk (List.replicate i 'v'))) =
      (0,
        (mergeImportedWords []
          (applySmartImportPlan (fun _ => none) "word,词"
            { format := .csv, hasHeader := some false,
              fieldMap := { english := some "column1", chinese := some "column2" } }
            "import-a" 0 (fun i => String.mk (List.replicate i 'u')))).2) := by
  refine applyPlan_mergeImported_idempotent (fun _ => none) "word,词"
    { format := .csv, hasHeader := some false,
      fieldMap := { english := some "column1", chinese := some "column2" } }
    "import-a" [] 0 5 (fun i => String.mk (List.replicate i 'u'))
    (fun i => String.mk (List.replicate i 'v')) ?_ ?_
  · intro i j h
    have h2 := congrArg String.data h
    have h3 := congrArg List.length h2
    simpa using h3
  · intro i
    simp

/-! ## C9 — the tag/meaning split is driven by CJK content, not by the
chinese field -/

theorem isCjk_not_space {c : Char} (h : isCjk c = true) : isJsSpace c = false := by
  have hr : 0x4e00 ≤ c.toNat ∧ c.toNat ≤ 0x9fff := by
    simpa [isCjk] using h
  by_contra hs
  have hs' : isJsSpace c = true := by
    cases h0 : isJsSpace c
    · exact absurd h0 hs
    · rfl
  simp only [isJsSpace, Bool.or_eq_true, decide_eq_true_eq] at hs'
  rcases hs' with ((((((((h1 | h1) | h1) | h1) | h1) | h1) | h1) | h1) | h1) <;>
    · have := congrArg Char.toNat h1
      simp at this
      omega

theorem isCjk_not_meaningLead {c : Char} (h : isCjk c = true) :
    isMeaningLead c = false := by
  have hr : 0x4e00 ≤ c.toNat ∧ c.toNat ≤ 0x9fff := by
    simpa [isCjk] using h
  by_contra hm
  have hm' : isMeaningLead c = true := by
    cases h0 : isMeaningLead c
    · exact absurd h0 hm
    · rfl
  simp only [isMeaningLead, Bool.or_eq_true, decide_eq_true_eq] at hm'
  rcases hm' with ((hsp | h1) | h1) | h1
  · rw [isCjk_not_space h] at hsp
    exact Bool.noConfusion hsp
  all_goals
    have := congrArg Char.toNat h1
    simp at this
    omega

theorem dropTrailWhile_cons_ne_nil (p : α → Bool) (c : α) (rest : List α)
    (h : p c = false) : dropTrailWhile p (c :: rest) ≠ [] := by
  intro h0
  unfold dropTrailWhile at h0
  have h1 : (c :: rest).reverse.dropWhile p = [] := by
    have := congrArg List.reverse h0
    simpa using this
  have := (List.dropWhile_eq_nil_iff.mp h1) c (by simp)
  rw [h] at this
  exact Bool.noConfusion this

theorem meaningSegment_ne_empty (l : List Char) (i : Nat)
    (hf : l.findIdx? isCjk = some i) :
    jsTrim (String.mk (dropLeadWhile isMeaningLead (l.drop i))) ≠ "" := by
  obtain ⟨hlt, hp, _⟩ := List.findIdx?_eq_some_iff_getElem.mp hf
  have hdrop : l.drop i = l[i] :: l.drop (i + 1) := List.drop_eq_getElem_cons hlt
  have hml := isCjk_not_meaningLead hp
  have hsp := isCjk_not_space hp
  rw [hdrop]
  unfold dropLeadWhile
  rw [List.dropWhile_cons, if_neg (by simp [hml])]
  unfold jsTrim dropLeadWhile
  intro h0
  have h1 := congrArg String.data h0
  rw [show (String.mk (dropTrailWhile isJsSpace
      (List.dropWhile isJsSpace (String.mk (l[i] :: l.drop (i + 1))).data))).data =
    dropTrailWhile isJsSpace
      (List.dropWhile isJsSpace (l[i] :: l.drop (i + 1))) from rfl] at h1
  rw [List.dropWhile_cons, if_neg (by simp [hsp])] at h1
  exact dropTrailWhile_cons_ne_nil isJsSpace l[i] _ hsp h1

theorem containsCjk_of_findIdx (t : String) (i : Nat)
    (hf : t.data.findIdx? isCjk = some i) : containsCjk t = true := by
  obtain ⟨hlt, hp, _⟩ := List.findIdx?_eq_some_iff_getElem.mp hf
  unfold containsCjk
  rw [List.any_eq_true]
  exact ⟨t.data[i], List.getElem_mem hlt, hp⟩

theorem not_containsCjk_of_findIdx_none (t : String)
    (hf : t.data.findIdx? isCjk = none) : containsCjk t = false := by
  unfold containsCjk
  rw [List.any_eq_false]
  intro c hc
  have := List.findIdx?_eq_none_iff.mp hf c hc
  simp [this]

theorem jsTrim_empty_str : jsTrim "" = "" := rfl

theorem mapOne_chinese_preserved (fm : SmartImportFieldMap) (lbl : String)
    (now : Nat) (uuid : Nat → String) (p : Nat × JValue) (w : WordItem)
    (c0 : String) (ts : List String) (mo : Option String)
    (hch : jsTrim (coerceToString (getValueByPath p.2 fm.chinese)) = c0)
    (hc0 : c0 ≠ "") (hcjk : containsCjk c0 = true)
    (htm : extractTagsAndMeaning (coerceToString (getValueByPath p.2 fm.tags)) =
      ⟨some ts, mo⟩)
    (hts : ts ≠ [])
    (h : mapOne fm lbl now uuid p = some w) :
    w.chinese = c0 ∧ w.tags = some ts := by
  by_cases he : jsTrim (coerceToString (getValueByPath p.2 fm.english)) = ""
  · simp [mapOne, he] at h
  · have hpair := congrArg (Option.map fun x => (x.chinese, x.tags)) h
    have hts' : ts.isEmpty = false := by simpa using hts
    cases mo with
    | none =>
      simp only [mapOne, he, if_false, hch, htm, hc0, hcjk, hts',
        Option.map_some, not_true, or_false, Option.getD_some,
        Bool.false_eq_true, false_and, and_false, if_false] at hpair
      injection hpair with hpair
      have h2 : (c0, some ts) = (w.chinese, w.tags) := hpair
      exact ⟨(congrArg Prod.fst h2).symm, (congrArg Prod.snd h2).symm⟩
    | some m =>
      simp only [mapOne, he, if_false, hch, htm, hc0, hcjk, hts',
        Option.map_some, not_true, or_false, Option.getD_some,
        Bool.false_eq_true, false_and, and_false, if_false] at hpair
      injection hpair with hpair
      have h2 : (c0, some ts) = (w.chinese, w.tags) := hpair
      exact ⟨(congrArg Prod.fst h2).symm, (congrArg Prod.snd h2).symm⟩

theorem mapOne_meaning_adopted (fm : SmartImportFieldMap) (lbl : String)
    (now : Nat) (uuid : Nat → String) (p : Nat × JValue) (w : WordItem)
    (m : String) (tg : Option (List String))
    (hch : jsTrim (coerceToString (getValueByPath p.2 fm.chinese)) = "")
    (htm : extractTagsAndMeaning (coerceToString (getValueByPath p.2 fm.tags)) =
      ⟨tg, some m⟩)
    (hm : m ≠ "") (hcjk : containsCjk m = true)
    (h : mapOne fm lbl now uuid p = some w) :
    w.chinese = m := by
  by_cases he : jsTrim (coerceToString (getValueByPath p.2 fm.english)) = ""
  · simp [mapOne, he] at h
  · have hc := congrArg (Option.map fun x => x.chinese) h
    simp only [mapOne, he, if_false, hch, htm, hm, hcjk, Option.map_some,
      ne_eq, not_false_iff, true_and, if_pos rfl, not_true, or_false,
      Bool.true_eq_false, if_true] at hc
    injection hc with hc
    have h2 : m = w.chinese := hc
    exact h2.symm

/-- C9 (counterexample): the claim's "only if" direction fails.  In the
record `word,好,x,adj. 坏` the resolved chinese is `好` (non-empty), yet
the tags raw string `adj. 坏` is still split at its first CJK character:
the resulting tags are `["adj"]` — the CJK remainder `坏` has been split
off and discarded — whereas the unsplit tag parse of the full string
would give `["adj", "坏"]`. -/
theorem extractTagsAndMeaning_claim_counterexample :
    (applySmartImportPlan (fun _ => none) "word,好,x,adj. 坏"
        { format := .csv, hasHeader := some false,
          fieldMap := { english := some "column1", chinese := some "column2",
                        «example» := some "column3", tags := some "column4" } }
        "src" 0 (fun i => "w" ++ toString i)).map (fun w => (w.chinese, w.tags)) =
      [("好", some ["adj"])] ∧
    extractTagsAndMeaning "adj. 坏" = ⟨some ["adj"], some "坏"⟩ ∧
    parseTagList (stripTrailDotsTrim "adj. 坏") = ["adj", "坏"] ∧
    (["adj"] : List String) ≠ ["adj", "坏"] :=
  ⟨by decide, by decide, by decide, by decide⟩

/-- C9 (amended): the tag/meaning split of the tags raw string is
performed exactly when the trimmed string contains a CJK character —
independently of the resolved chinese value; when performed, the pre-CJK
segment (trimmed, trailing full stops stripped) becomes the provisional
tags and the CJK-onward remainder (leading colon/space/period stripped,
trimmed) becomes the chinese candidate, which is adopted as the record's
chinese only when the resolved chinese is empty: a record whose resolved
chinese is non-empty and CJK keeps its chinese, and its tags still come
from the split. -/
theorem extractTagsAndMeaning_split_amended :
    (∀ s, (extractTagsAndMeaning s).meaning.isSome = containsCjk (jsTrim s)) ∧
    (∀ s i, (jsTrim s).data.findIdx? isCjk = some i →
      extractTagsAndMeaning s =
        ⟨tagsOfSegment (jsTrim (String.mk ((jsTrim s).data.take i))),
         some (jsTrim (String.mk (dropLeadWhile isMeaningLead
           ((jsTrim s).data.drop i))))⟩) ∧
    (∀ fm lbl now uuid (p : Nat × JValue) w m tg,
      jsTrim (coerceToString (getValueByPath p.2 fm.chinese)) = "" →
      extractTagsAndMeaning (coerceToString (getValueByPath p.2 fm.tags)) =
        ⟨tg, some m⟩ →
      m ≠ "" → containsCjk m = true →
      mapOne fm lbl now uuid p = some w → w.chinese = m) ∧
    (∀ fm lbl now uuid (p : Nat × JValue) w c0 ts mo,
      jsTrim (coerceToString (getValueByPath p.2 fm.chinese)) = c0 →
      c0 ≠ "" → containsCjk c0 = true →
      extractTagsAndMeaning (coerceToString (getValueByPath p.2 fm.tags)) =
        ⟨some ts, mo⟩ →
      ts ≠ [] →
      mapOne fm lbl now uuid p = some w → w.chinese = c0 ∧ w.tags = some ts) := by
  refine ⟨?_, ?_,
    fun fm lbl now uuid p w m tg h1 h2 h3 h4 h5 =>
      mapOne_meaning_adopted fm lbl now uuid p w m tg h1 h2 h3 h4 h5,
    fun fm lbl now uuid p w c0 ts mo h1 h2 h3 h4 h5 h6 =>
      mapOne_chinese_preserved fm lbl now uuid p w c0 ts mo h1 h2 h3 h4 h5 h6⟩
  · intro s
    by_cases h0 : s = ""
    · subst h0
      rfl
    · by_cases h1 : jsTrim s = ""
      · unfold extractTagsAndMeaning
        rw [if_neg h0, if_pos h1, h1]
        rfl
      · cases hf : (jsTrim s).data.findIdx? isCjk with
        | some i =>
          unfold extractTagsAndMeaning
          rw [if_neg h0, if_neg h1, hf]
          have hM := meaningSegment_ne_empty (jsTrim s).data i hf
          have hc := containsCjk_of_findIdx (jsTrim s) i hf
          simp [meaningOfSegment, hM, hc]
        | none =>
          unfold extractTagsAndMeaning
          rw [if_neg h0, if_neg h1, hf]
          have hc := not_containsCjk_of_findIdx_none (jsTrim s) hf
          simp [hc]
  · intro s i hf
    have hne : jsTrim s ≠ "" := by
      obtain ⟨hlt, _, _⟩ := List.findIdx?_eq_some_iff_getElem.mp hf
      intro h0
      rw [h0] at hlt
      simp at hlt
    have hs0 : s ≠ "" := by
      intro h0
      rw [h0] at hne
      exact hne rfl
    unfold extractTagsAndMeaning
    rw [if_neg hs0, if_neg hne, hf]
    have hM := meaningSegment_ne_empty (jsTrim s).data i hf
    simp [meaningOfSegment, hM]

/-- The four-column field map of the C9 scenarios. -/
def c9FieldMap : SmartImportFieldMap :=
  { english := some "column1", chinese := some "column2",
    «example» := some "column3", tags := some "column4" }

/-- C9 witness: the amended split theorem applied at concrete records —
the segment characterisation at `a 好`, the adoption of the meaning
`喵` when chinese resolves empty, and the preservation of a non-empty
CJK chinese `好` together with the split tags `["adj"]`. -/
theorem extractTagsAndMeaning_split_amended_witness :
    extractTagsAndMeaning "a 好" =
      ⟨tagsOfSegment (jsTrim (String.mk ((jsTrim "a 好").data.take 2))),
       some (jsTrim (String.mk (dropLeadWhile isMeaningLead
         ((jsTrim "a 好").data.drop 2))))⟩ ∧
    WordItem.chinese
      { id := "u", english := "cat", chinese := "喵", «example» := some "x",
        tags := some ["n"], isMastered := 0, createdAt := 0, source := "src" } =
      "喵" ∧
    (WordItem.chinese
      { id := "u", english := "word", chinese := "好", «example» := some "x",
        tags := some ["adj"], isMastered := 0, createdAt := 0, source := "src" } =
      "好" ∧
     WordItem.tags
      { id := "u", english := "word", chinese := "好", «example» := some "x",
        tags := some ["adj"], isMastered := 0, createdAt := 0, source := "src" } =
      some ["adj"]) := by
  refine ⟨extractTagsAndMeaning_split_amended.2.1 "a 好" 2 (by decide), ?_, ?_⟩
  · exact extractTagsAndMeaning_split_amended.2.2.1 c9FieldMap "src" 0
      (fun _ => "u")
      (0, delimitedRecord ["column1", "column2", "column3", "column4"]
        ["cat", "", "x", "n. 喵"])
      { id := "u", english := "cat", chinese := "喵", «example» := some "x",
        tags := some ["n"], isMastered := 0, createdAt := 0, source := "src" }
      "喵" (some ["n"]) (by decide) (by decide) (by decide) (by decide)
      (by decide)
  · exact extractTagsAndMeaning_split_amended.2.2.2 c9FieldMap "src" 0
      (fun _ => "u")
      (0, delimitedRecord ["column1", "column2", "column3", "column4"]
        ["word", "好", "x", "adj. 坏"])
      { id := "u", english := "word", chinese := "好", «example» := some "x",
        tags := some ["adj"], isMastered := 0, createdAt := 0, source := "src" }
      "好" ["adj"] (some "坏") (by decide) (by decide) (by decide) (by decide)
      (by decide) (by decide)
